import Mathlib

/-!
Shallow embedding of the two Federal Register miners
(`src/federal_register_miner.py` and `src/historical_fr_miner.py`).

Python strings are modelled as lists of characters (`Str`): the miners only
concatenate, slice, filter and compare strings, so a character-list model is
exact on the fragment the code uses.  Effects are made explicit:

* the upstream API for one date is modelled as the sequence of page
  responses the miner would receive for pages 1, 2, 3, ...; a page past the
  end of the sequence behaves like a page with an empty `results` array,
  which the miner already treats as the end of the data;
* a raised `requests` / JSON exception while fetching a page is the
  `FetchResult.fetchError` response (the Python `except Exception` around
  the page loop catches it);
* `create_story_html` is modelled by its return value
  `(filename, headline)`; the artifact body it writes is never read back by
  the program, and the timestamp line of the body is the only part of the
  function that is not a pure function of `(doc, story_num)`;
* the mutable `state` dict is threaded explicitly: each operation returns
  the updated `State` together with its Python return value.

Both source files define textually identical `slugify`,
`get_next_story_num` and (up to the unobserved body text) the same
`create_story_html`, `load_state` and `fetch_documents`; those shared
functions are embedded once at top level.  The functions that differ —
`mine_date` (batch-limited) versus `mine_date_all`, and the two `main`
orchestrators — live in the namespaces `FRM` and `HFM`.
-/

abbrev Str := List Char

/-- Character list of a Lean string literal (used to transcribe the Python
string literals). -/
def chars (s : String) : Str := s.toList

/-- A `StoryRecord` as returned by `create_story_html`:
`(filename, headline)`. -/
abbrev Story := Str × Str

/-- ASCII characters matched by Python's regex class `\s` (the miners never
see non-ASCII whitespace that survives the first substitution, so the ASCII
fragment is the relevant one). -/
def isPySpace (c : Char) : Bool :=
  c == ' ' || c == '\t' || c == '\n' || c == '\r' || c == '\x0b' || c == '\x0c'

/-- The character class kept by `re.sub(r'[^a-z0-9\s-]', '', slug)`. -/
def keepChar (c : Char) : Bool :=
  ('a' ≤ c && c ≤ 'z') || ('0' ≤ c && c ≤ '9') || isPySpace c || c == '-'

/-- The character class `[\s_-]` collapsed by the second substitution. -/
def isSep (c : Char) : Bool := isPySpace c || c == '_' || c == '-'

/-- `re.sub(r'[\s_-]+', '-', slug)`: every maximal run of separator
characters becomes a single hyphen.  The boolean flag records whether the
previous character belonged to the current separator run. -/
def collapseSeps : Bool → Str → Str
  | _, [] => []
  | inRun, c :: rest =>
    if isSep c then
      if inRun then collapseSeps true rest else '-' :: collapseSeps true rest
    else c :: collapseSeps false rest

/-- Python `slug.strip('-')`: drop leading and trailing hyphens. -/
def stripHyphens (l : Str) : Str :=
  ((l.dropWhile (· == '-')).reverse.dropWhile (· == '-')).reverse

/-- `slugify(title)` from both miners (lines 42-48 / 39-44): lower-case,
strip characters outside `[a-z0-9\s-]`, collapse separator runs to single
hyphens, strip edge hyphens, then truncate to 50 characters. -/
def slugify (title : Str) : Str :=
  let slug := title.map Char.toLower
  let slug := slug.filter keepChar
  let slug := collapseSeps false slug
  let slug := stripHyphens slug
  slug.take 50

/-- Digit string to integer, as Python `int(...)` on a run of decimal
digits. -/
def digitsToNat (ds : Str) : Nat :=
  ds.foldl (fun n c => n * 10 + (c.toNat - 48)) 0

/-- The number captured by `re.match(r'story-(\d+)', f)`: the filename must
start with the literal `story-` followed by at least one digit, and the
captured group is the maximal leading digit run. -/
def storyNumOf (f : Str) : Option Nat :=
  if (chars "story-").isPrefixOf f then
    let ds := (f.drop 6).takeWhile Char.isDigit
    if ds.isEmpty then none else some (digitsToNat ds)
  else none

/-- `get_next_story_num()` from both miners, as a function of the directory
listing it scans: keep the filenames that start with `story-` and end with
`.html`; if none, return 1; otherwise collect the regex-extracted numbers
and return their maximum plus one (1 when no filename yields a number). -/
def get_next_story_num (files : List Str) : Nat :=
  let existing := files.filter fun f =>
    (chars "story-").isPrefixOf f && (chars ".html").isSuffixOf f
  if existing.isEmpty then 1
  else
    let nums := existing.filterMap storyNumOf
    if nums.isEmpty then 1 else nums.foldl Nat.max 0 + 1

/-- A fetched document, restricted to the two fields that influence the
values the program later observes (`document_number` feeds the dedup
ledger, `title` feeds the filename and headline).  The remaining fields of
the JSON record only appear inside the written artifact body, which no
other part of the program reads. -/
structure Doc where
  title : Option Str
  document_number : Option Str
deriving DecidableEq

/-- `doc.get('document_number', '')` — the ledger identifier of a document;
a missing field yields the empty string. -/
def docNum (d : Doc) : Str := d.document_number.getD []

/-- The persisted state dict: `{"published_docs": [...], "next_story_num": n}`. -/
structure State where
  published_docs : List Str
  next_story_num : Nat
deriving DecidableEq

/-- Python `f"{n:03d}"`: decimal digits left-padded with zeros to width 3. -/
def pad3 (n : Nat) : Str :=
  let ds := Nat.toDigits 10 n
  List.replicate (3 - ds.length) '0' ++ ds

/-- `create_story_html(doc, story_num)`, modelled by its return value
`(filename, headline)`.  The filename is
`story-<seq zero-padded to 3>-fr-<slug>.html` and the headline is
`Federal Register: <title>`, with `Untitled` as the default title. -/
def create_story_html (doc : Doc) (story_num : Nat) : Story :=
  let title := doc.title.getD (chars "Untitled")
  let headline := chars "Federal Register: " ++ title
  let slug := slugify title
  let filename :=
    chars "story-" ++ pad3 story_num ++ chars "-fr-" ++ slug ++ chars ".html"
  (filename, headline)

/-- One response of `fetch_documents` for a page: either a raised
exception (`fetchError`), or a parsed JSON body summarised by its
`results` array and its `total_pages` value (with the Python default `1`
already applied for a missing field). -/
inductive FetchResult where
  | fetchError : FetchResult
  | ok : List Doc → Nat → FetchResult
deriving DecidableEq

/-- The `results` array delivered by one page response. -/
def pageResults : FetchResult → List Doc
  | .fetchError => []
  | .ok r _ => r

/-- All documents contained in a sequence of page responses. -/
def pagesDocs (pages : List FetchResult) : List Doc :=
  (pages.map pageResults).flatten

namespace FRM

/-- The per-document loop of `mine_date` (`federal_register_miner.py`
lines 181-194) over one fetched `results` array.  Returns the accumulated
`new_stories`, the updated state, and whether the
`len(new_stories) >= batch_size` early `return` fired. -/
def processDocs (batch_size : Nat) : List Doc → State → List Story → List Story × State × Bool
  | [], s, acc => (acc, s, false)
  | d :: ds, s, acc =>
    if docNum d ∈ s.published_docs then processDocs batch_size ds s acc
    else
      let story := create_story_html d s.next_story_num
      let acc' := acc ++ [story]
      let s' : State := ⟨s.published_docs ++ [docNum d], s.next_story_num + 1⟩
      if batch_size ≤ acc'.length then (acc', s', true)
      else processDocs batch_size ds s' acc'

/-- The `while True` pagination loop of `mine_date` (lines 173-204),
consuming the remaining page responses.  `page` is the current page number
(used only for the `page > total_pages` stop test); a `fetchError` response
is caught by the `except` clause and ends the loop with the stories
accumulated so far. -/
def mineLoop (batch_size : Nat) :
    List FetchResult → Nat → State → List Story → List Story × State
  | [], _, s, acc => (acc, s)
  | .fetchError :: _, _, s, acc => (acc, s)
  | .ok results total_pages :: rest, page, s, acc =>
    if results.isEmpty then (acc, s)
    else
      match processDocs batch_size results s acc with
      | (acc', s', true) => (acc', s')
      | (acc', s', false) =>
        if total_pages < page + 1 then (acc', s')
        else mineLoop batch_size rest (page + 1) s' acc'

/-- `mine_date(date_str, state, batch_size)`: the date string only selects
which upstream response sequence `pages` is being paged through, so the
embedding takes that sequence directly.  Returns the Python return value
`new_stories` together with the state the call mutated. -/
def mine_date (pages : List FetchResult) (s : State) (batch_size : Nat) :
    List Story × State :=
  mineLoop batch_size pages 1 s []

/-- The documents fetched during a `mine_date` run: the concatenation of
the `results` arrays of exactly those pages whose fetch succeeded before
the loop stopped.  Mirrors the control flow of `mineLoop`. -/
def fetchedLoop (batch_size : Nat) :
    List FetchResult → Nat → State → List Story → List Doc
  | [], _, _, _ => []
  | .fetchError :: _, _, _, _ => []
  | .ok results total_pages :: rest, page, s, acc =>
    if results.isEmpty then results
    else
      match processDocs batch_size results s acc with
      | (_, _, true) => results
      | (acc', s', false) =>
        if total_pages < page + 1 then results
        else results ++ fetchedLoop batch_size rest (page + 1) s' acc'

/-- The documents fetched during `mine_date pages s batch_size`. -/
def fetched (pages : List FetchResult) (s : State) (batch_size : Nat) : List Doc :=
  fetchedLoop batch_size pages 1 s []

end FRM

namespace HFM

/-- The per-document loop of `mine_date_all` (`historical_fr_miner.py`
lines 132-141): identical to `FRM.processDocs` except that there is no
batch-size early return. -/
def processDocsAll : List Doc → State → List Story → List Story × State
  | [], s, acc => (acc, s)
  | d :: ds, s, acc =>
    if docNum d ∈ s.published_docs then processDocsAll ds s acc
    else
      processDocsAll ds
        ⟨s.published_docs ++ [docNum d], s.next_story_num + 1⟩
        (acc ++ [create_story_html d s.next_story_num])

/-- The pagination loop of `mine_date_all` (lines 124-151). -/
def mineAllLoop : List FetchResult → Nat → State → List Story → List Story × State
  | [], _, s, acc => (acc, s)
  | .fetchError :: _, _, s, acc => (acc, s)
  | .ok results total_pages :: rest, page, s, acc =>
    if results.isEmpty then (acc, s)
    else
      let (acc', s') := processDocsAll results s acc
      if total_pages < page + 1 then (acc', s')
      else mineAllLoop rest (page + 1) s' acc'

/-- `mine_date_all(date_str, state)`: mines every document of one date's
upstream sequence, with no batch limit. -/
def mine_date_all (pages : List FetchResult) (s : State) : List Story × State :=
  mineAllLoop pages 1 s []

/-- The documents fetched during a `mine_date_all` run. -/
def fetchedAllLoop : List FetchResult → Nat → State → List Story → List Doc
  | [], _, _, _ => []
  | .fetchError :: _, _, _, _ => []
  | .ok results total_pages :: rest, page, s, acc =>
    if results.isEmpty then results
    else
      let (acc', s') := processDocsAll results s acc
      if total_pages < page + 1 then results
      else results ++ fetchedAllLoop rest (page + 1) s' acc'

/-- The documents fetched during `mine_date_all pages s`. -/
def fetchedAll (pages : List FetchResult) (s : State) : List Doc :=
  fetchedAllLoop pages 1 s []

/-- The day loop of `main(days_back, batch_commit_size)`
(`historical_fr_miner.py` lines 168-179), one entry of `daysPages` per
mined date.  For each day it records whether the
`len(batch_stories) >= batch_commit_size` checkpoint fired (`some n` =
state saved and `n` accumulated stories published, accumulator reset;
`none` = no checkpoint).  Returns the per-day checkpoint events, the
accumulator left over after the loop, and the final state. -/
def mainLoop (batch_commit_size : Nat) :
    List (List FetchResult) → State → List Story →
    List (Option Nat) × List Story × State
  | [], s, batch => ([], batch, s)
  | dayPages :: restDays, s, batch =>
    let (new, s') := mine_date_all dayPages s
    let batch' := batch ++ new
    if batch_commit_size ≤ batch'.length then
      let (evs, rem, sf) := mainLoop batch_commit_size restDays s' []
      (some batch'.length :: evs, rem, sf)
    else
      let (evs, rem, sf) := mainLoop batch_commit_size restDays s' batch'
      (none :: evs, rem, sf)

/-- `main(days_back, batch_commit_size)` of the historical miner:
load the persisted state, overwrite its cursor with the directory scan
(line 162), run the day loop, then perform the final flush for any
remaining accumulated stories (lines 182-185).  Returns the per-day
checkpoint events, the size of the final flush (`none` when the
accumulator is empty and no final commit happens), and the final state. -/
def main (persisted : State) (listing : List Str)
    (daysPages : List (List FetchResult)) (batch_commit_size : Nat) :
    List (Option Nat) × Option Nat × State :=
  let s : State := ⟨persisted.published_docs, get_next_story_num listing⟩
  let (evs, rem, sf) := mainLoop batch_commit_size daysPages s []
  (evs, if rem.isEmpty then none else some rem.length, sf)

end HFM

/-- The insertion anchor of `update_index`: `'<ul id="stories">'`. -/
def indexMarker : Str := chars "<ul id=\"stories\">"

/-- One `<li>` link line appended for a story (filename, headline). -/
def storyLink (st : Story) : Str :=
  chars "\n        <li><a href=\"" ++ st.1 ++ chars "\">" ++ st.2
    ++ chars "</a></li>"

/-- The `new_links` string accumulated over the batch, in batch order. -/
def storiesHtml (sts : List Story) : Str := (sts.map storyLink).flatten

/-- The default `index.html` skeleton used when no index exists yet
(`federal_register_miner.py` lines 133-152). -/
def defaultIndexHtml : Str := chars
  "<!DOCTYPE html>\n<html>\n<head>\n    <title>Opus Claude Code Breaking News Wire</title>\n    <style>\n        body \x7b font-family: Georgia, serif; max-width: 900px; margin: 0 auto; padding: 20px; \x7d\n        h1 \x7b border-bottom: 3px solid #dc3545; \x7d\n        ul \x7b list-style-type: none; padding: 0; \x7d\n        li \x7b padding: 10px; border-bottom: 1px solid #eee; \x7d\n        a \x7b color: #333; text-decoration: none; \x7d\n        a:hover \x7b color: #dc3545; \x7d\n    </style>\n</head>\n<body>\n    <h1>Opus Claude Code Breaking News Wire</h1>\n    <ul id=\"stories\">\n    </ul>\n</body>\n</html>\n"

/-- First occurrence split: `findSplit marker content = some (pre, suf)`
iff `marker` occurs in `content`; `pre` is the prefix of `content` up to
and including the first occurrence (Python
`content[:content.find(marker) + len(marker)]`) and `suf` is the rest. -/
def findSplit (marker : Str) : Str → Option (Str × Str)
  | [] => if marker.isEmpty then some ([], []) else none
  | c :: rest =>
    if marker.isPrefixOf (c :: rest) then
      some (marker, (c :: rest).drop marker.length)
    else
      match findSplit marker rest with
      | some (pre, suf) => some (c :: pre, suf)
      | none => none

/-- `update_index(new_stories)` (`federal_register_miner.py` lines
125-164), as a function of the pre-existing index content (`none` when no
index file exists) returning the content written back: start from the
existing content or the default skeleton, and if the anchor occurs, insert
the batch's links right after its first occurrence; otherwise write the
content back unchanged. -/
def update_index (existing : Option Str) (new_stories : List Story) : Str :=
  let content :=
    match existing with
    | some c => c
    | none => defaultIndexHtml
  match findSplit indexMarker content with
  | some (pre, suf) => pre ++ storiesHtml new_stories ++ suf
  | none => content

namespace FRM

/-- `main()` of the single-date miner (`federal_register_miner.py` lines
212-229): load state, overwrite the cursor with the directory scan
(line 215), mine today's upstream sequence with `batch_size=100`, and — if
any stories were produced — update the index and save the state.  Returns
the mined stories, the in-memory final state, and the index content
written (`none` when nothing was published and the index is untouched). -/
def main (persisted : State) (listing : List Str) (priorIndex : Option Str)
    (pages : List FetchResult) : List Story × State × Option Str :=
  let s : State := ⟨persisted.published_docs, get_next_story_num listing⟩
  let (new_stories, s') := mine_date pages s 100
  (new_stories, s',
    if new_stories.isEmpty then none
    else some (update_index priorIndex new_stories))

end FRM

/-! ### Lemmas about `slugify` -/

lemma mem_collapseSeps {c : Char} :
    ∀ (b : Bool) (l : Str), c ∈ collapseSeps b l →
      c = '-' ∨ (c ∈ l ∧ isSep c = false) := by
  intro b l
  induction l generalizing b with
  | nil => simp [collapseSeps]
  | cons a rest ih =>
    by_cases ha : isSep a = true
    · cases b with
      | true =>
        intro h
        simp only [collapseSeps, ha, if_true] at h
        rcases ih true h with h1 | ⟨h1, h2⟩
        · exact Or.inl h1
        · exact Or.inr ⟨List.mem_cons_of_mem a h1, h2⟩
      | false =>
        intro h
        simp only [collapseSeps, ha, if_true] at h
        rcases List.mem_cons.mp h with h1 | h1
        · exact Or.inl h1
        · rcases ih true h1 with h2 | ⟨h2, h3⟩
          · exact Or.inl h2
          · exact Or.inr ⟨List.mem_cons_of_mem a h2, h3⟩
    · intro h
      simp only [collapseSeps, ha, if_false] at h
      rcases List.mem_cons.mp h with h1 | h1
      · subst h1
        exact Or.inr ⟨List.mem_cons_self c rest, by simpa using ha⟩
      · rcases ih false h1 with h2 | ⟨h2, h3⟩
        · exact Or.inl h2
        · exact Or.inr ⟨List.mem_cons_of_mem a h2, h3⟩

lemma stripHyphens_subset {c : Char} {l : Str} (h : c ∈ stripHyphens l) : c ∈ l := by
  unfold stripHyphens at h
  rw [List.mem_reverse] at h
  have h2 : c ∈ (l.dropWhile (· == '-')).reverse :=
    (List.dropWhile_suffix (· == '-')).subset h
  rw [List.mem_reverse] at h2
  exact (List.dropWhile_suffix (· == '-')).subset h2

lemma head?_dropWhile_ne (p : Char → Bool) {l : Str} {c : Char}
    (h : (l.dropWhile p).head? = some c) : p c = false := by
  have := List.head?_dropWhile_not p l
  rw [h] at this
  exact this

lemma stripHyphens_head? {l : Str} {c : Char}
    (h : (stripHyphens l).head? = some c) : (c == '-') = false := by
  unfold stripHyphens at h
  set m := l.dropWhile (· == '-') with hm
  have hsplit : (m.reverse.dropWhile (· == '-')).reverse
      ++ (m.reverse.takeWhile (· == '-')).reverse = m := by
    rw [← List.reverse_append, List.takeWhile_append_dropWhile, List.reverse_reverse]
  have hmh : m.head? = some c := by
    rcases hA : (m.reverse.dropWhile (· == '-')).reverse with _ | ⟨x, xs⟩
    · rw [hA] at h; simp at h
    · rw [hA] at h
      simp only [List.head?_cons, Option.some.injEq] at h
      rw [← hsplit, hA]
      simp [h]
  exact head?_dropWhile_ne (fun x => x == '-') hmh

lemma stripHyphens_getLast? {l : Str} {c : Char}
    (h : (stripHyphens l).getLast? = some c) : (c == '-') = false := by
  unfold stripHyphens at h
  have hrev := List.head?_reverse ((l.dropWhile (· == '-')).reverse.dropWhile (· == '-')).reverse
  rw [List.reverse_reverse] at hrev
  exact head?_dropWhile_ne (fun x => x == '-') (hrev.trans h)

lemma keep_not_sep {c : Char} (hk : keepChar c = true) (hs : isSep c = false) :
    ('a' ≤ c ∧ c ≤ 'z') ∨ ('0' ≤ c ∧ c ≤ '9') := by
  simp only [isSep, Bool.or_eq_false_iff] at hs
  simp only [keepChar, hs.1.1, hs.2, Bool.or_false, Bool.or_eq_true,
    Bool.and_eq_true, decide_eq_true_eq] at hk
  exact hk

lemma head?_take (l : Str) (n : Nat) (hn : n ≠ 0) : (l.take n).head? = l.head? := by
  cases l with
  | nil => simp
  | cons a as =>
    cases n with
    | zero => exact absurd rfl hn
    | succ m => simp [List.take_succ_cons]

lemma slugify_mem {t : Str} {c : Char} (h : c ∈ slugify t) :
    ('a' ≤ c ∧ c ≤ 'z') ∨ ('0' ≤ c ∧ c ≤ '9') ∨ c = '-' := by
  have h1 : c ∈ stripHyphens (collapseSeps false (((t.map Char.toLower)).filter keepChar)) :=
    List.take_subset 50 _ h
  have h2 := stripHyphens_subset h1
  rcases mem_collapseSeps false _ h2 with h3 | ⟨h3, h4⟩
  · exact Or.inr (Or.inr h3)
  · have h5 := (List.mem_filter.mp h3).2
    rcases keep_not_sep h5 h4 with h6 | h6
    · exact Or.inl h6
    · exact Or.inr (Or.inl h6)

/-- Claim C2 (amended): `slugify` is deterministic, its output contains
only lowercase ASCII letters, digits and hyphens, has length at most 50 and
never starts with a hyphen; the no-trailing-hyphen guarantee holds whenever
the output was not truncated at the 50-character cap (the cap is applied
after the hyphen strip, so a truncation that cuts at a hyphen leaves it
trailing — see the counterexample). -/
theorem claim2 : ∀ t : Str,
    (∀ u : Str, t = u → slugify t = slugify u) ∧
    (∀ c ∈ slugify t, ('a' ≤ c ∧ c ≤ 'z') ∨ ('0' ≤ c ∧ c ≤ '9') ∨ c = '-') ∧
    (slugify t).length ≤ 50 ∧
    (slugify t).head? ≠ some '-' ∧
    ((slugify t).length < 50 → (slugify t).getLast? ≠ some '-') := by
  intro t
  refine ⟨fun u hu => hu ▸ rfl, fun c hc => slugify_mem hc, ?_, ?_, ?_⟩
  · simp only [slugify, List.length_take]
    exact Nat.min_le_left _ _
  · intro h
    have h' : (stripHyphens (collapseSeps false ((t.map Char.toLower).filter keepChar))).head?
        = some '-' := by
      rw [← head?_take (stripHyphens (collapseSeps false ((t.map Char.toLower).filter keepChar))) 50 (by decide)]
      exact h
    have := stripHyphens_head? h'
    simp at this
  · intro hlen h
    set X := stripHyphens (collapseSeps false ((t.map Char.toLower).filter keepChar)) with hX
    have hXlen : X.length < 50 := by
      have : (slugify t).length = min 50 X.length := by
        simp [slugify, List.length_take, hX]
      rw [this] at hlen
      omega
    have htake : slugify t = X := by
      show X.take 50 = X
      exact List.take_of_length_le (Nat.le_of_lt hXlen)
    rw [htake] at h
    have := stripHyphens_getLast? h
    simp at this

/-- Concrete input for the C2 counterexample: 26 letters separated by
single spaces; the slug before truncation is 51 characters long. -/
def claim2Title : Str := chars "a a a a a a a a a a a a a a a a a a a a a a a a a a"

/-- Claim C2 counterexample: the claim asserts the slug never has a
trailing hyphen, but on `claim2Title` the 50-character truncation — which
the code applies after stripping edge hyphens — cuts exactly at a hyphen,
so the returned slug ends in `'-'`. -/
theorem claim2_cex :
    (slugify claim2Title).getLast? = some '-' ∧ (slugify claim2Title).length = 50 := by
  constructor <;> decide

/-- Title used to instantiate the C2 witness (the spec's own scenario). -/
def claim2WitnessTitle : Str := chars "New Rule: Import Tariffs!!"

/-- Witness for the amended C2 at the spec's scenario title. -/
theorem claim2_witness :
    slugify claim2WitnessTitle = slugify claim2WitnessTitle ∧
    (('a' ≤ 'n' ∧ 'n' ≤ 'z') ∨ ('0' ≤ 'n' ∧ 'n' ≤ '9') ∨ 'n' = '-') ∧
    (slugify claim2WitnessTitle).length ≤ 50 ∧
    (slugify claim2WitnessTitle).getLast? ≠ some '-' :=
  ⟨(claim2 claim2WitnessTitle).1 claim2WitnessTitle rfl,
   (claim2 claim2WitnessTitle).2.1 'n' (by decide),
   (claim2 claim2WitnessTitle).2.2.1,
   (claim2 claim2WitnessTitle).2.2.2.2 (by decide)⟩

/-! ### Lemmas about `get_next_story_num` -/

/-- A filename that matches the artifact naming pattern of the claim:
it starts with `story-`, ends with `.html`, and the regex
`story-(\d+)` extracts a sequence number from it. -/
def matchesStoryArtifact (f : Str) : Bool :=
  (chars "story-").isPrefixOf f && (chars ".html").isSuffixOf f
    && (storyNumOf f).isSome

/-- The claim's `recomputeNextSequence`, written from its words: 1 when no
filename matches the artifact naming pattern, otherwise one plus the
maximum sequence number embedded in the matching filenames. -/
def recomputeNextSequenceClaim (files : List Str) : Nat :=
  let nums := (files.filter matchesStoryArtifact).filterMap storyNumOf
  if nums.isEmpty then 1 else nums.foldl Nat.max 0 + 1

lemma filterMap_filter_isSome {α β : Type} (g : α → Option β) (p : α → Bool) :
    ∀ l : List α,
      (l.filter p).filterMap g
        = (l.filter fun a => p a && (g a).isSome).filterMap g := by
  intro l
  induction l with
  | nil => rfl
  | cons a l ih =>
    by_cases hp : p a = true
    · cases hg : g a with
      | none => simp [List.filter_cons, hp, hg, List.filterMap_cons, ih]
      | some b => simp [List.filter_cons, hp, hg, List.filterMap_cons, ih]
    · simp only [Bool.not_eq_true] at hp
      simp [List.filter_cons, hp, ih]

/-- Claim C5: `get_next_story_num` computes exactly the claim's
`recomputeNextSequence` of the directory listing — 1 when no filename
matches the artifact naming pattern, otherwise one plus the maximum
embedded sequence number.  It is a function of the listing alone, so the
persisted `next_story_num` cannot influence it. -/
theorem claim5 : ∀ files : List Str,
    get_next_story_num files = recomputeNextSequenceClaim files := by
  intro files
  unfold get_next_story_num recomputeNextSequenceClaim
  have key := filterMap_filter_isSome storyNumOf
    (fun f => (chars "story-").isPrefixOf f && (chars ".html").isSuffixOf f) files
  have hmatch : files.filter matchesStoryArtifact
      = files.filter fun f =>
          ((chars "story-").isPrefixOf f && (chars ".html").isSuffixOf f)
            && (storyNumOf f).isSome := rfl
  rw [hmatch, ← key]
  by_cases hex : (files.filter fun f =>
      (chars "story-").isPrefixOf f && (chars ".html").isSuffixOf f).isEmpty
  · simp only [hex, if_true]
    have : (files.filter fun f =>
        (chars "story-").isPrefixOf f && (chars ".html").isSuffixOf f) = [] :=
      List.isEmpty_iff.mp hex
    rw [this]
    simp
  · simp [hex]

/-! ### Lemmas about `update_index` -/

lemma isPrefixOf_append_drop :
    ∀ (m l : Str), m.isPrefixOf l = true → l = m ++ l.drop m.length := by
  intro m
  induction m with
  | nil => intro l _; simp
  | cons a as ih =>
    intro l h
    cases l with
    | nil => simp [List.isPrefixOf] at h
    | cons b bs =>
      simp only [List.isPrefixOf, Bool.and_eq_true, beq_iff_eq] at h
      obtain ⟨hab, hpre⟩ := h
      subst hab
      simpa using ih bs hpre

lemma findSplit_eq :
    ∀ (marker content pre suf : Str),
      findSplit marker content = some (pre, suf) →
      content = pre ++ suf ∧ ∃ lead, pre = lead ++ marker := by
  intro marker content
  induction content with
  | nil =>
    intro pre suf h
    simp only [findSplit] at h
    by_cases hm : marker.isEmpty
    · rw [if_pos hm] at h
      obtain ⟨h1, h2⟩ := Prod.mk.injEq _ _ _ _ ▸ Option.some.injEq _ _ ▸ h
      refine ⟨by simp [← h1, ← h2], ⟨[], ?_⟩⟩
      rw [← h1]
      simp [List.isEmpty_iff.mp hm]
    · rw [if_neg hm] at h
      exact absurd h (by simp)
  | cons c rest ih =>
    intro pre suf h
    simp only [findSplit] at h
    by_cases hpre : marker.isPrefixOf (c :: rest) = true
    · rw [if_pos hpre] at h
      simp only [Option.some.injEq, Prod.mk.injEq] at h
      obtain ⟨h1, h2⟩ := h
      subst h1; subst h2
      exact ⟨isPrefixOf_append_drop marker (c :: rest) hpre, ⟨[], by simp⟩⟩
    · rw [if_neg hpre] at h
      cases hfs : findSplit marker rest with
      | none => rw [hfs] at h; exact absurd h (by simp)
      | some ps =>
        obtain ⟨p, s⟩ := ps
        rw [hfs] at h
        simp only [Option.some.injEq, Prod.mk.injEq] at h
        obtain ⟨h1, h2⟩ := h
        subst h1; subst h2
        obtain ⟨hc, lead, hl⟩ := ih p s hfs
        exact ⟨by simp [hc], ⟨c :: lead, by simp [hl]⟩⟩

set_option maxRecDepth 4000 in
/-- Claim C8: when the anchor occurs in the existing index content,
`update_index` splits the content at the first occurrence of the anchor
(prefix up to and including the anchor, then the remainder), keeps both
parts unchanged, and inserts the batch's links — in batch order, as
concatenated by `storiesHtml` — between them; when no prior index exists it
does the same starting from the default skeleton. -/
theorem claim8 :
    (∀ (content : Str) (stories : List Story) (pre suf : Str),
      findSplit indexMarker content = some (pre, suf) →
      update_index (some content) stories = pre ++ storiesHtml stories ++ suf ∧
      content = pre ++ suf ∧ ∃ lead, pre = lead ++ indexMarker) ∧
    (∀ stories : List Story, ∃ pre suf : Str,
      defaultIndexHtml = pre ++ suf ∧ (∃ lead, pre = lead ++ indexMarker) ∧
      update_index none stories = pre ++ storiesHtml stories ++ suf) := by
  constructor
  · intro content stories pre suf h
    obtain ⟨hc, lead, hl⟩ := findSplit_eq indexMarker content pre suf h
    refine ⟨?_, hc, ⟨lead, hl⟩⟩
    show (match findSplit indexMarker content with
      | some (pre, suf) => pre ++ storiesHtml stories ++ suf
      | none => content) = pre ++ storiesHtml stories ++ suf
    rw [h]
  · intro stories
    cases hfs : findSplit indexMarker defaultIndexHtml with
    | none =>
      have hsome : (findSplit indexMarker defaultIndexHtml).isSome = true := by decide
      rw [hfs] at hsome
      simp at hsome
    | some ps =>
      obtain ⟨p, s⟩ := ps
      obtain ⟨hc, lead, hl⟩ := findSplit_eq indexMarker defaultIndexHtml p s hfs
      refine ⟨p, s, hc, ⟨lead, hl⟩, ?_⟩
      show (match findSplit indexMarker defaultIndexHtml with
        | some (pre, suf) => pre ++ storiesHtml stories ++ suf
        | none => defaultIndexHtml) = p ++ storiesHtml stories ++ s
      rw [hfs]

/-- Minimal prior index content used to instantiate the C8 witness. -/
def claim8Content : Str := chars "<body><ul id=\"stories\"></ul></body>"

set_option maxRecDepth 4000 in
/-- Witness for C8 at a concrete index content and one-story batch. -/
theorem claim8_witness :
    update_index (some claim8Content) [(chars "f.html", chars "H")]
        = chars "<body><ul id=\"stories\">"
          ++ storiesHtml [(chars "f.html", chars "H")] ++ chars "</ul></body>" ∧
    claim8Content = chars "<body><ul id=\"stories\">" ++ chars "</ul></body>" ∧
    ∃ lead, chars "<body><ul id=\"stories\">" = lead ++ indexMarker :=
  claim8.1 claim8Content [(chars "f.html", chars "H")]
    (chars "<body><ul id=\"stories\">") (chars "</ul></body>") (by decide)

/-! ### Lemmas about the batch-limited miner (`FRM.mine_date`) -/

namespace FRM

lemma processDocs_nil (b : Nat) (s : State) (acc : List Story) :
    processDocs b [] s acc = (acc, s, false) := rfl

lemma processDocs_cons_mem (b : Nat) {d : Doc} (ds : List Doc) {s : State}
    (acc : List Story) (h : docNum d ∈ s.published_docs) :
    processDocs b (d :: ds) s acc = processDocs b ds s acc := by
  simp [processDocs, h]

lemma processDocs_cons_new (b : Nat) {d : Doc} (ds : List Doc) {s : State}
    (acc : List Story) (h : docNum d ∉ s.published_docs) :
    processDocs b (d :: ds) s acc =
      if b ≤ (acc ++ [create_story_html d s.next_story_num]).length then
        (acc ++ [create_story_html d s.next_story_num],
         ⟨s.published_docs ++ [docNum d], s.next_story_num + 1⟩, true)
      else
        processDocs b ds ⟨s.published_docs ++ [docNum d], s.next_story_num + 1⟩
          (acc ++ [create_story_html d s.next_story_num]) := by
  simp [processDocs, h]

lemma processDocs_spec (b : Nat) :
    ∀ (docs : List Doc) (s : State) (acc : List Story),
      ∃ A S,
        (processDocs b docs s acc).2.1.published_docs = s.published_docs ++ A ∧
        (processDocs b docs s acc).1 = acc ++ S ∧
        S.length = A.length ∧
        (processDocs b docs s acc).2.1.next_story_num
          = s.next_story_num + A.length ∧
        (∀ a ∈ A, a ∉ s.published_docs) ∧
        (∀ a ∈ A, ∃ d, d ∈ docs ∧ docNum d = a) := by
  intro docs
  induction docs with
  | nil =>
    intro s acc
    exact ⟨[], [], by simp [processDocs_nil], by simp [processDocs_nil], rfl,
      by simp [processDocs_nil], by simp, by simp⟩
  | cons d ds ih =>
    intro s acc
    by_cases hmem : docNum d ∈ s.published_docs
    · rw [processDocs_cons_mem b ds acc hmem]
      obtain ⟨A, S, h1, h2, h3, h4, h5, h6⟩ := ih s acc
      exact ⟨A, S, h1, h2, h3, h4, h5, fun a ha =>
        let ⟨d', hd', hdn⟩ := h6 a ha
        ⟨d', List.mem_cons_of_mem d hd', hdn⟩⟩
    · rw [processDocs_cons_new b ds acc hmem]
      by_cases hb : b ≤ (acc ++ [create_story_html d s.next_story_num]).length
      · rw [if_pos hb]
        refine ⟨[docNum d], [create_story_html d s.next_story_num],
          rfl, rfl, rfl, rfl, ?_, ?_⟩
        · intro a ha
          rw [List.mem_singleton] at ha
          subst ha
          exact hmem
        · intro a ha
          rw [List.mem_singleton] at ha
          subst ha
          exact ⟨d, List.mem_cons_self d ds, rfl⟩
      · rw [if_neg hb]
        obtain ⟨A, S, h1, h2, h3, h4, h5, h6⟩ :=
          ih ⟨s.published_docs ++ [docNum d], s.next_story_num + 1⟩
            (acc ++ [create_story_html d s.next_story_num])
        refine ⟨docNum d :: A, create_story_html d s.next_story_num :: S,
          ?_, ?_, ?_, ?_, ?_, ?_⟩
        · rw [h1]; simp
        · rw [h2]; simp
        · simp [h3]
        · rw [h4]; simp only [List.length_cons]; omega
        · intro a ha
          rcases List.mem_cons.mp ha with h | h
          · subst h; exact hmem
          · exact fun hmem2 => h5 a h (List.mem_append_left _ hmem2)
        · intro a ha
          rcases List.mem_cons.mp ha with h | h
          · subst h; exact ⟨d, List.mem_cons_self d ds, rfl⟩
          · obtain ⟨d', hd', hdn⟩ := h6 a h
            exact ⟨d', List.mem_cons_of_mem d hd', hdn⟩

lemma processDocs_mono (b : Nat) (docs : List Doc) (s : State)
    (acc : List Story) {x : Str} (hx : x ∈ s.published_docs) :
    x ∈ (processDocs b docs s acc).2.1.published_docs := by
  obtain ⟨A, S, h1, _, _, _, _, _⟩ := processDocs_spec b docs s acc
  rw [h1]
  exact List.mem_append_left _ hx

lemma mineLoop_nil (b page : Nat) (s : State) (acc : List Story) :
    mineLoop b [] page s acc = (acc, s) := rfl

lemma mineLoop_err (b : Nat) (rest : List FetchResult) (page : Nat) (s : State)
    (acc : List Story) :
    mineLoop b (.fetchError :: rest) page s acc = (acc, s) := rfl

lemma mineLoop_ok (b : Nat) (r : List Doc) (tp : Nat) (rest : List FetchResult)
    (page : Nat) (s : State) (acc : List Story) :
    mineLoop b (.ok r tp :: rest) page s acc =
      if r.isEmpty then (acc, s)
      else
        match processDocs b r s acc with
        | (acc', s', true) => (acc', s')
        | (acc', s', false) =>
          if tp < page + 1 then (acc', s')
          else mineLoop b rest (page + 1) s' acc' := rfl

lemma fetchedLoop_ok (b : Nat) (r : List Doc) (tp : Nat)
    (rest : List FetchResult) (page : Nat) (s : State) (acc : List Story) :
    fetchedLoop b (.ok r tp :: rest) page s acc =
      if r.isEmpty then r
      else
        match processDocs b r s acc with
        | (_, _, true) => r
        | (acc', s', false) =>
          if tp < page + 1 then r
          else r ++ fetchedLoop b rest (page + 1) s' acc' := rfl

lemma mineLoop_spec (b : Nat) :
    ∀ (pages : List FetchResult) (page : Nat) (s : State) (acc : List Story),
      ∃ A S,
        (mineLoop b pages page s acc).2.published_docs
          = s.published_docs ++ A ∧
        (mineLoop b pages page s acc).1 = acc ++ S ∧
        S.length = A.length ∧
        (mineLoop b pages page s acc).2.next_story_num
          = s.next_story_num + A.length ∧
        (∀ a ∈ A, a ∉ s.published_docs) ∧
        (∀ a ∈ A, ∃ d, d ∈ fetchedLoop b pages page s acc ∧ docNum d = a) := by
  intro pages
  induction pages with
  | nil =>
    intro page s acc
    exact ⟨[], [], by simp [mineLoop_nil], by simp [mineLoop_nil], rfl,
      by simp [mineLoop_nil], by simp, by simp⟩
  | cons pg rest ih =>
    intro page s acc
    cases pg with
    | fetchError =>
      exact ⟨[], [], by simp [mineLoop_err], by simp [mineLoop_err], rfl,
        by simp [mineLoop_err], by simp, by simp⟩
    | ok r tp =>
      by_cases hr : r.isEmpty = true
      · refine ⟨[], [], ?_, ?_, rfl, ?_, by simp, by simp⟩ <;>
          simp [mineLoop_ok, hr]
      · rcases hpd : processDocs b r s acc with ⟨acc', s', halted⟩
        obtain ⟨A1, S1, p1, p2, p3, p4, p5, p6⟩ := processDocs_spec b r s acc
        rw [hpd] at p1 p2 p4
        dsimp only at p1 p2 p4
        cases halted with
        | true =>
          have hm : mineLoop b (.ok r tp :: rest) page s acc = (acc', s') := by
            rw [mineLoop_ok, if_neg hr, hpd]
          have hf : fetchedLoop b (.ok r tp :: rest) page s acc = r := by
            rw [fetchedLoop_ok, if_neg hr, hpd]
          rw [hm, hf]
          exact ⟨A1, S1, p1, p2, p3, p4, p5, p6⟩
        | false =>
          by_cases htp : tp < page + 1
          · have hm : mineLoop b (.ok r tp :: rest) page s acc = (acc', s') := by
              rw [mineLoop_ok, if_neg hr, hpd]
              exact if_pos htp
            have hf : fetchedLoop b (.ok r tp :: rest) page s acc = r := by
              rw [fetchedLoop_ok, if_neg hr, hpd]
              exact if_pos htp
            rw [hm, hf]
            exact ⟨A1, S1, p1, p2, p3, p4, p5, p6⟩
          · have hm : mineLoop b (.ok r tp :: rest) page s acc
                = mineLoop b rest (page + 1) s' acc' := by
              rw [mineLoop_ok, if_neg hr, hpd]
              exact if_neg htp
            have hf : fetchedLoop b (.ok r tp :: rest) page s acc
                = r ++ fetchedLoop b rest (page + 1) s' acc' := by
              rw [fetchedLoop_ok, if_neg hr, hpd]
              exact if_neg htp
            rw [hm, hf]
            obtain ⟨A2, S2, q1, q2, q3, q4, q5, q6⟩ := ih (page + 1) s' acc'
            refine ⟨A1 ++ A2, S1 ++ S2, ?_, ?_, ?_, ?_, ?_, ?_⟩
            · rw [q1, p1, List.append_assoc]
            · rw [q2, p2, List.append_assoc]
            · simp [p3, q3]
            · rw [q4, p4]; simp [Nat.add_assoc]
            · intro a ha
              rcases List.mem_append.mp ha with h | h
              · exact p5 a h
              · exact fun hmem => q5 a h (by rw [p1]; exact List.mem_append_left _ hmem)
            · intro a ha
              rcases List.mem_append.mp ha with h | h
              · obtain ⟨d, hd, hdn⟩ := p6 a h
                exact ⟨d, List.mem_append_left _ hd, hdn⟩
              · obtain ⟨d, hd, hdn⟩ := q6 a h
                exact ⟨d, List.mem_append_right _ hd, hdn⟩

lemma mineLoop_mono (b : Nat) (pages : List FetchResult) (page : Nat)
    (s : State) (acc : List Story) {x : Str} (hx : x ∈ s.published_docs) :
    x ∈ (mineLoop b pages page s acc).2.published_docs := by
  obtain ⟨A, S, h1, _, _, _, _, _⟩ := mineLoop_spec b pages page s acc
  rw [h1]
  exact List.mem_append_left _ hx

end FRM

lemma pagesDocs_err (rest : List FetchResult) :
    pagesDocs (.fetchError :: rest) = pagesDocs rest := by
  simp [pagesDocs, pageResults]

lemma pagesDocs_ok (r : List Doc) (tp : Nat) (rest : List FetchResult) :
    pagesDocs (.ok r tp :: rest) = r ++ pagesDocs rest := by
  simp [pagesDocs, pageResults]

namespace FRM

lemma processDocs_skip (b : Nat) :
    ∀ (docs : List Doc) (s : State) (acc : List Story),
      (∀ d ∈ docs, docNum d ∈ s.published_docs) →
      processDocs b docs s acc = (acc, s, false) := by
  intro docs
  induction docs with
  | nil => intro s acc _; rfl
  | cons d ds ih =>
    intro s acc h
    rw [processDocs_cons_mem b ds acc (h d (List.mem_cons_self d ds))]
    exact ih s acc fun d' hd' => h d' (List.mem_cons_of_mem d hd')

lemma mineLoop_skip (b : Nat) :
    ∀ (pages : List FetchResult) (page : Nat) (s : State) (acc : List Story),
      (∀ d ∈ pagesDocs pages, docNum d ∈ s.published_docs) →
      mineLoop b pages page s acc = (acc, s) := by
  intro pages
  induction pages with
  | nil => intro page s acc _; rfl
  | cons pg rest ih =>
    intro page s acc h
    cases pg with
    | fetchError => rfl
    | ok r tp =>
      by_cases hr : r.isEmpty = true
      · rw [mineLoop_ok, if_pos hr]
      · have hskip : processDocs b r s acc = (acc, s, false) :=
          processDocs_skip b r s acc fun d hd =>
            h d (by rw [pagesDocs_ok]; exact List.mem_append_left _ hd)
        rw [mineLoop_ok, if_neg hr, hskip]
        by_cases htp : tp < page + 1
        · exact if_pos htp
        · exact (if_neg htp).trans (ih (page + 1) s acc fun d hd =>
            h d (by rw [pagesDocs_ok]; exact List.mem_append_right _ hd))

lemma processDocs_members (b : Nat) :
    ∀ (docs : List Doc) (s : State) (acc : List Story),
      (processDocs b docs s acc).2.2 = false →
      ∀ d ∈ docs, docNum d ∈ (processDocs b docs s acc).2.1.published_docs := by
  intro docs
  induction docs with
  | nil => intro s acc _ d hd; exact absurd hd (List.not_mem_nil d)
  | cons d ds ih =>
    intro s acc hfalse d' hd'
    by_cases hmem : docNum d ∈ s.published_docs
    · rw [processDocs_cons_mem b ds acc hmem] at hfalse ⊢
      rcases List.mem_cons.mp hd' with h | h
      · subst h; exact processDocs_mono b ds s acc hmem
      · exact ih s acc hfalse d' h
    · rw [processDocs_cons_new b ds acc hmem] at hfalse ⊢
      by_cases hb : b ≤ (acc ++ [create_story_html d s.next_story_num]).length
      · rw [if_pos hb] at hfalse
        exact absurd hfalse (by simp)
      · rw [if_neg hb] at hfalse ⊢
        rcases List.mem_cons.mp hd' with h | h
        · subst h
          exact processDocs_mono b ds _ _
            (List.mem_append_right _ (List.mem_singleton.mpr rfl))
        · exact ih _ _ hfalse d' h

lemma processDocs_halted (b : Nat) :
    ∀ (docs : List Doc) (s : State) (acc : List Story),
      (processDocs b docs s acc).2.2 = true →
      b ≤ (processDocs b docs s acc).1.length := by
  intro docs
  induction docs with
  | nil => intro s acc h; exact absurd h (by simp [processDocs_nil])
  | cons d ds ih =>
    intro s acc h
    by_cases hmem : docNum d ∈ s.published_docs
    · rw [processDocs_cons_mem b ds acc hmem] at h ⊢
      exact ih s acc h
    · rw [processDocs_cons_new b ds acc hmem] at h ⊢
      by_cases hb : b ≤ (acc ++ [create_story_html d s.next_story_num]).length
      · rw [if_pos hb]
        exact hb
      · rw [if_neg hb] at h ⊢
        exact ih _ _ h

lemma processDocs_len (b : Nat) :
    ∀ (docs : List Doc) (s : State) (acc : List Story),
      acc.length < b →
      (processDocs b docs s acc).1.length ≤ b ∧
      ((processDocs b docs s acc).2.2 = false →
        (processDocs b docs s acc).1.length < b) := by
  intro docs
  induction docs with
  | nil => intro s acc h; exact ⟨Nat.le_of_lt h, fun _ => h⟩
  | cons d ds ih =>
    intro s acc h
    by_cases hmem : docNum d ∈ s.published_docs
    · rw [processDocs_cons_mem b ds acc hmem]
      exact ih s acc h
    · rw [processDocs_cons_new b ds acc hmem]
      by_cases hb : b ≤ (acc ++ [create_story_html d s.next_story_num]).length
      · rw [if_pos hb]
        constructor
        · simpa using h
        · intro hf; exact absurd hf (by simp)
      · rw [if_neg hb]
        exact ih _ _ (Nat.lt_of_not_le hb)

lemma mineLoop_len (b : Nat) :
    ∀ (pages : List FetchResult) (page : Nat) (s : State) (acc : List Story),
      acc.length < b → (mineLoop b pages page s acc).1.length ≤ b := by
  intro pages
  induction pages with
  | nil => intro page s acc h; exact Nat.le_of_lt h
  | cons pg rest ih =>
    intro page s acc h
    cases pg with
    | fetchError => exact Nat.le_of_lt h
    | ok r tp =>
      by_cases hr : r.isEmpty = true
      · rw [mineLoop_ok, if_pos hr]
        exact Nat.le_of_lt h
      · rcases hpd : processDocs b r s acc with ⟨acc', s', halted⟩
        obtain ⟨hle, hlt⟩ := processDocs_len b r s acc h
        rw [hpd] at hle hlt
        dsimp only at hle hlt
        cases halted with
        | true =>
          have hm : mineLoop b (.ok r tp :: rest) page s acc = (acc', s') := by
            rw [mineLoop_ok, if_neg hr, hpd]
          rw [hm]
          exact hle
        | false =>
          by_cases htp : tp < page + 1
          · have hm : mineLoop b (.ok r tp :: rest) page s acc = (acc', s') := by
              rw [mineLoop_ok, if_neg hr, hpd]
              exact if_pos htp
            rw [hm]
            exact hle
          · have hm : mineLoop b (.ok r tp :: rest) page s acc
                = mineLoop b rest (page + 1) s' acc' := by
              rw [mineLoop_ok, if_neg hr, hpd]
              exact if_neg htp
            rw [hm]
            exact ih (page + 1) s' acc' (hlt rfl)

lemma mineLoop_idem_lt (b : Nat) :
    ∀ (pages : List FetchResult) (page : Nat) (s : State) (acc : List Story),
      (mineLoop b pages page s acc).1.length < b →
      mineLoop b pages page (mineLoop b pages page s acc).2 []
        = ([], (mineLoop b pages page s acc).2) := by
  intro pages
  induction pages with
  | nil => intro page s acc _; rfl
  | cons pg rest ih =>
    intro page s acc hlen
    cases pg with
    | fetchError => rfl
    | ok r tp =>
      by_cases hr : r.isEmpty = true
      · rw [mineLoop_ok, if_pos hr]
      · rcases hpd : processDocs b r s acc with ⟨acc', s', halted⟩
        cases halted with
        | true =>
          have hm : mineLoop b (.ok r tp :: rest) page s acc = (acc', s') := by
            rw [mineLoop_ok, if_neg hr, hpd]
          rw [hm] at hlen ⊢
          have hb := processDocs_halted b r s acc (by rw [hpd])
          rw [hpd] at hb
          dsimp only at hb hlen
          omega
        | false =>
          have hmembers := processDocs_members b r s acc (by rw [hpd]) 
          rw [hpd] at hmembers
          dsimp only at hmembers
          by_cases htp : tp < page + 1
          · have hm : mineLoop b (.ok r tp :: rest) page s acc = (acc', s') := by
              rw [mineLoop_ok, if_neg hr, hpd]
              exact if_pos htp
            rw [hm] at hlen ⊢
            dsimp only
            have hskip : processDocs b r s' [] = ([], s', false) :=
              processDocs_skip b r s' [] hmembers
            rw [mineLoop_ok, if_neg hr, hskip]
            exact if_pos htp
          · have hm : mineLoop b (.ok r tp :: rest) page s acc
                = mineLoop b rest (page + 1) s' acc' := by
              rw [mineLoop_ok, if_neg hr, hpd]
              exact if_neg htp
            rw [hm] at hlen ⊢
            have hskip : processDocs b r (mineLoop b rest (page + 1) s' acc').2 []
                = ([], (mineLoop b rest (page + 1) s' acc').2, false) :=
              processDocs_skip b r _ [] fun d hd =>
                mineLoop_mono b rest (page + 1) s' acc' (hmembers d hd)
            rw [mineLoop_ok, if_neg hr, hskip]
            exact (if_neg htp).trans (ih (page + 1) s' acc' hlen)

end FRM

/-! ### Lemmas about the full-date miner (`HFM.mine_date_all`) -/

namespace HFM

lemma processDocsAll_nil (s : State) (acc : List Story) :
    processDocsAll [] s acc = (acc, s) := rfl

lemma processDocsAll_cons_mem {d : Doc} (ds : List Doc) {s : State}
    (acc : List Story) (h : docNum d ∈ s.published_docs) :
    processDocsAll (d :: ds) s acc = processDocsAll ds s acc := by
  simp [processDocsAll, h]

lemma processDocsAll_cons_new {d : Doc} (ds : List Doc) {s : State}
    (acc : List Story) (h : docNum d ∉ s.published_docs) :
    processDocsAll (d :: ds) s acc =
      processDocsAll ds ⟨s.published_docs ++ [docNum d], s.next_story_num + 1⟩
        (acc ++ [create_story_html d s.next_story_num]) := by
  simp [processDocsAll, h]

lemma processDocsAll_spec :
    ∀ (docs : List Doc) (s : State) (acc : List Story),
      ∃ A S,
        (processDocsAll docs s acc).2.published_docs = s.published_docs ++ A ∧
        (processDocsAll docs s acc).1 = acc ++ S ∧
        S.length = A.length ∧
        (processDocsAll docs s acc).2.next_story_num
          = s.next_story_num + A.length ∧
        (∀ a ∈ A, a ∉ s.published_docs) ∧
        (∀ a ∈ A, ∃ d, d ∈ docs ∧ docNum d = a) := by
  intro docs
  induction docs with
  | nil =>
    intro s acc
    exact ⟨[], [], by simp [processDocsAll_nil], by simp [processDocsAll_nil],
      rfl, by simp [processDocsAll_nil], by simp, by simp⟩
  | cons d ds ih =>
    intro s acc
    by_cases hmem : docNum d ∈ s.published_docs
    · rw [processDocsAll_cons_mem ds acc hmem]
      obtain ⟨A, S, h1, h2, h3, h4, h5, h6⟩ := ih s acc
      exact ⟨A, S, h1, h2, h3, h4, h5, fun a ha =>
        let ⟨d', hd', hdn⟩ := h6 a ha
        ⟨d', List.mem_cons_of_mem d hd', hdn⟩⟩
    · rw [processDocsAll_cons_new ds acc hmem]
      obtain ⟨A, S, h1, h2, h3, h4, h5, h6⟩ :=
        ih ⟨s.published_docs ++ [docNum d], s.next_story_num + 1⟩
          (acc ++ [create_story_html d s.next_story_num])
      refine ⟨docNum d :: A, create_story_html d s.next_story_num :: S,
        ?_, ?_, ?_, ?_, ?_, ?_⟩
      · rw [h1]; simp
      · rw [h2]; simp
      · simp [h3]
      · rw [h4]; simp only [List.length_cons]; omega
      · intro a ha
        rcases List.mem_cons.mp ha with h | h
        · subst h; exact hmem
        · exact fun hmem2 => h5 a h (List.mem_append_left _ hmem2)
      · intro a ha
        rcases List.mem_cons.mp ha with h | h
        · subst h; exact ⟨d, List.mem_cons_self d ds, rfl⟩
        · obtain ⟨d', hd', hdn⟩ := h6 a h
          exact ⟨d', List.mem_cons_of_mem d hd', hdn⟩

lemma processDocsAll_mono (docs : List Doc) (s : State) (acc : List Story)
    {x : Str} (hx : x ∈ s.published_docs) :
    x ∈ (processDocsAll docs s acc).2.published_docs := by
  obtain ⟨A, S, h1, _, _, _, _, _⟩ := processDocsAll_spec docs s acc
  rw [h1]
  exact List.mem_append_left _ hx

lemma processDocsAll_skip :
    ∀ (docs : List Doc) (s : State) (acc : List Story),
      (∀ d ∈ docs, docNum d ∈ s.published_docs) →
      processDocsAll docs s acc = (acc, s) := by
  intro docs
  induction docs with
  | nil => intro s acc _; rfl
  | cons d ds ih =>
    intro s acc h
    rw [processDocsAll_cons_mem ds acc (h d (List.mem_cons_self d ds))]
    exact ih s acc fun d' hd' => h d' (List.mem_cons_of_mem d hd')

lemma processDocsAll_members :
    ∀ (docs : List Doc) (s : State) (acc : List Story),
      ∀ d ∈ docs, docNum d ∈ (processDocsAll docs s acc).2.published_docs := by
  intro docs
  induction docs with
  | nil => intro s acc d hd; exact absurd hd (List.not_mem_nil d)
  | cons d ds ih =>
    intro s acc d' hd'
    by_cases hmem : docNum d ∈ s.published_docs
    · rw [processDocsAll_cons_mem ds acc hmem]
      rcases List.mem_cons.mp hd' with h | h
      · subst h; exact processDocsAll_mono ds s acc hmem
      · exact ih s acc d' h
    · rw [processDocsAll_cons_new ds acc hmem]
      rcases List.mem_cons.mp hd' with h | h
      · subst h
        exact processDocsAll_mono ds _ _
          (List.mem_append_right _ (List.mem_singleton.mpr rfl))
      · exact ih _ _ d' h

lemma mineAllLoop_nil (page : Nat) (s : State) (acc : List Story) :
    mineAllLoop [] page s acc = (acc, s) := rfl

lemma mineAllLoop_err (rest : List FetchResult) (page : Nat) (s : State)
    (acc : List Story) :
    mineAllLoop (.fetchError :: rest) page s acc = (acc, s) := rfl

lemma mineAllLoop_ok (r : List Doc) (tp : Nat) (rest : List FetchResult)
    (page : Nat) (s : State) (acc : List Story) :
    mineAllLoop (.ok r tp :: rest) page s acc =
      if r.isEmpty then (acc, s)
      else
        if tp < page + 1 then processDocsAll r s acc
        else mineAllLoop rest (page + 1) (processDocsAll r s acc).2
          (processDocsAll r s acc).1 := rfl

lemma fetchedAllLoop_ok (r : List Doc) (tp : Nat) (rest : List FetchResult)
    (page : Nat) (s : State) (acc : List Story) :
    fetchedAllLoop (.ok r tp :: rest) page s acc =
      if r.isEmpty then r
      else
        if tp < page + 1 then r
        else r ++ fetchedAllLoop rest (page + 1) (processDocsAll r s acc).2
          (processDocsAll r s acc).1 := rfl

lemma mineAllLoop_spec :
    ∀ (pages : List FetchResult) (page : Nat) (s : State) (acc : List Story),
      ∃ A S,
        (mineAllLoop pages page s acc).2.published_docs
          = s.published_docs ++ A ∧
        (mineAllLoop pages page s acc).1 = acc ++ S ∧
        S.length = A.length ∧
        (mineAllLoop pages page s acc).2.next_story_num
          = s.next_story_num + A.length ∧
        (∀ a ∈ A, a ∉ s.published_docs) ∧
        (∀ a ∈ A, ∃ d, d ∈ fetchedAllLoop pages page s acc ∧ docNum d = a) := by
  intro pages
  induction pages with
  | nil =>
    intro page s acc
    exact ⟨[], [], by simp [mineAllLoop_nil], by simp [mineAllLoop_nil], rfl,
      by simp [mineAllLoop_nil], by simp, by simp⟩
  | cons pg rest ih =>
    intro page s acc
    cases pg with
    | fetchError =>
      exact ⟨[], [], by simp [mineAllLoop_err], by simp [mineAllLoop_err], rfl,
        by simp [mineAllLoop_err], by simp, by simp⟩
    | ok r tp =>
      by_cases hr : r.isEmpty = true
      · refine ⟨[], [], ?_, ?_, rfl, ?_, by simp, by simp⟩ <;>
          simp [mineAllLoop_ok, hr]
      · obtain ⟨A1, S1, p1, p2, p3, p4, p5, p6⟩ := processDocsAll_spec r s acc
        by_cases htp : tp < page + 1
        · have hm : mineAllLoop (.ok r tp :: rest) page s acc
              = processDocsAll r s acc := by
            rw [mineAllLoop_ok, if_neg hr]
            exact if_pos htp
          have hf : fetchedAllLoop (.ok r tp :: rest) page s acc = r := by
            rw [fetchedAllLoop_ok, if_neg hr]
            exact if_pos htp
          rw [hm, hf]
          exact ⟨A1, S1, p1, p2, p3, p4, p5, p6⟩
        · have hm : mineAllLoop (.ok r tp :: rest) page s acc
              = mineAllLoop rest (page + 1) (processDocsAll r s acc).2
                  (processDocsAll r s acc).1 := by
            rw [mineAllLoop_ok, if_neg hr]
            exact if_neg htp
          have hf : fetchedAllLoop (.ok r tp :: rest) page s acc
              = r ++ fetchedAllLoop rest (page + 1) (processDocsAll r s acc).2
                  (processDocsAll r s acc).1 := by
            rw [fetchedAllLoop_ok, if_neg hr]
            exact if_neg htp
          rw [hm, hf]
          obtain ⟨A2, S2, q1, q2, q3, q4, q5, q6⟩ :=
            ih (page + 1) (processDocsAll r s acc).2 (processDocsAll r s acc).1
          refine ⟨A1 ++ A2, S1 ++ S2, ?_, ?_, ?_, ?_, ?_, ?_⟩
          · rw [q1, p1, List.append_assoc]
          · rw [q2, p2, List.append_assoc]
          · simp [p3, q3]
          · rw [q4, p4]; simp [Nat.add_assoc]
          · intro a ha
            rcases List.mem_append.mp ha with h | h
            · exact p5 a h
            · exact fun hmem => q5 a h (by rw [p1]; exact List.mem_append_left _ hmem)
          · intro a ha
            rcases List.mem_append.mp ha with h | h
            · obtain ⟨d, hd, hdn⟩ := p6 a h
              exact ⟨d, List.mem_append_left _ hd, hdn⟩
            · obtain ⟨d, hd, hdn⟩ := q6 a h
              exact ⟨d, List.mem_append_right _ hd, hdn⟩

lemma mineAllLoop_mono (pages : List FetchResult) (page : Nat) (s : State)
    (acc : List Story) {x : Str} (hx : x ∈ s.published_docs) :
    x ∈ (mineAllLoop pages page s acc).2.published_docs := by
  obtain ⟨A, S, h1, _, _, _, _, _⟩ := mineAllLoop_spec pages page s acc
  rw [h1]
  exact List.mem_append_left _ hx

lemma mineAllLoop_skip :
    ∀ (pages : List FetchResult) (page : Nat) (s : State) (acc : List Story),
      (∀ d ∈ pagesDocs pages, docNum d ∈ s.published_docs) →
      mineAllLoop pages page s acc = (acc, s) := by
  intro pages
  induction pages with
  | nil => intro page s acc _; rfl
  | cons pg rest ih =>
    intro page s acc h
    cases pg with
    | fetchError => rfl
    | ok r tp =>
      by_cases hr : r.isEmpty = true
      · rw [mineAllLoop_ok, if_pos hr]
      · have hskip : processDocsAll r s acc = (acc, s) :=
          processDocsAll_skip r s acc fun d hd =>
            h d (by rw [pagesDocs_ok]; exact List.mem_append_left _ hd)
        rw [mineAllLoop_ok, if_neg hr, hskip]
        by_cases htp : tp < page + 1
        · exact if_pos htp
        · exact (if_neg htp).trans (ih (page + 1) s acc fun d hd =>
            h d (by rw [pagesDocs_ok]; exact List.mem_append_right _ hd))

lemma mineAllLoop_idem :
    ∀ (pages : List FetchResult) (page : Nat) (s : State) (acc : List Story),
      mineAllLoop pages page (mineAllLoop pages page s acc).2 []
        = ([], (mineAllLoop pages page s acc).2) := by
  intro pages
  induction pages with
  | nil => intro page s acc; rfl
  | cons pg rest ih =>
    intro page s acc
    cases pg with
    | fetchError => rfl
    | ok r tp =>
      by_cases hr : r.isEmpty = true
      · rw [mineAllLoop_ok, if_pos hr]
      · have hmembers := processDocsAll_members r s acc
        by_cases htp : tp < page + 1
        · have hm : mineAllLoop (.ok r tp :: rest) page s acc
              = processDocsAll r s acc := by
            rw [mineAllLoop_ok, if_neg hr]
            exact if_pos htp
          rw [hm]
          have hskip : processDocsAll r (processDocsAll r s acc).2 []
              = ([], (processDocsAll r s acc).2) :=
            processDocsAll_skip r _ [] hmembers
          rw [mineAllLoop_ok, if_neg hr, hskip]
          exact if_pos htp
        · have hm : mineAllLoop (.ok r tp :: rest) page s acc
              = mineAllLoop rest (page + 1) (processDocsAll r s acc).2
                  (processDocsAll r s acc).1 := by
            rw [mineAllLoop_ok, if_neg hr]
            exact if_neg htp
          rw [hm]
          have hskip : processDocsAll r
              (mineAllLoop rest (page + 1) (processDocsAll r s acc).2
                (processDocsAll r s acc).1).2 []
              = ([], (mineAllLoop rest (page + 1) (processDocsAll r s acc).2
                  (processDocsAll r s acc).1).2) :=
            processDocsAll_skip r _ [] fun d hd =>
              mineAllLoop_mono rest (page + 1) _ _ (hmembers d hd)
          rw [mineAllLoop_ok, if_neg hr, hskip]
          exact (if_neg htp).trans
            (ih (page + 1) (processDocsAll r s acc).2 (processDocsAll r s acc).1)

end HFM

/-! ### Mid-pagination fetch errors -/

namespace FRM

lemma mineLoop_err_append (b : Nat) :
    ∀ (pre rest : List FetchResult) (page : Nat) (s : State) (acc : List Story),
      mineLoop b (pre ++ .fetchError :: rest) page s acc
        = mineLoop b pre page s acc := by
  intro pre
  induction pre with
  | nil => intro rest page s acc; rfl
  | cons pg pre ih =>
    intro rest page s acc
    cases pg with
    | fetchError => rfl
    | ok r tp =>
      rw [List.cons_append, mineLoop_ok, mineLoop_ok]
      by_cases hr : r.isEmpty = true
      · rw [if_pos hr, if_pos hr]
      · rw [if_neg hr, if_neg hr]
        rcases hpd : processDocs b r s acc with ⟨acc', s', halted⟩
        cases halted with
        | true => rfl
        | false =>
          show (if tp < page + 1 then (acc', s')
              else mineLoop b (pre ++ .fetchError :: rest) (page + 1) s' acc')
            = if tp < page + 1 then (acc', s')
              else mineLoop b pre (page + 1) s' acc'
          by_cases htp : tp < page + 1
          · rw [if_pos htp, if_pos htp]
          · rw [if_neg htp, if_neg htp]
            exact ih rest (page + 1) s' acc'

end FRM

namespace HFM

lemma mineAllLoop_err_append :
    ∀ (pre rest : List FetchResult) (page : Nat) (s : State) (acc : List Story),
      mineAllLoop (pre ++ .fetchError :: rest) page s acc
        = mineAllLoop pre page s acc := by
  intro pre
  induction pre with
  | nil => intro rest page s acc; rfl
  | cons pg pre ih =>
    intro rest page s acc
    cases pg with
    | fetchError => rfl
    | ok r tp =>
      rw [List.cons_append, mineAllLoop_ok, mineAllLoop_ok]
      by_cases hr : r.isEmpty = true
      · rw [if_pos hr, if_pos hr]
      · rw [if_neg hr, if_neg hr]
        by_cases htp : tp < page + 1
        · rw [if_pos htp, if_pos htp]
        · rw [if_neg htp, if_neg htp]
          exact ih rest (page + 1) _ _

end HFM

/-! ### Claims about the mining loops -/

/-- Claim C4: a `FetchError` on some page makes mining return exactly what
mining the error-free prefix of pages returns — every page after the error
is abandoned, nothing accumulated is lost, and the exception never escapes
the mining call (both miners are total functions of the page sequence). -/
theorem claim4 :
    ∀ (pre rest : List FetchResult) (s : State) (b : Nat),
      FRM.mine_date (pre ++ .fetchError :: rest) s b = FRM.mine_date pre s b ∧
      HFM.mine_date_all (pre ++ .fetchError :: rest) s
        = HFM.mine_date_all pre s := by
  intro pre rest s b
  exact ⟨FRM.mineLoop_err_append b pre rest 1 s [],
    HFM.mineAllLoop_err_append pre rest 1 s []⟩

/-- Claim C3 (amended): for every positive batch limit `K`, single-date
mining returns at most `K` new stories, however many fresh documents the
upstream pages contain.  (For `K = 0` the code still publishes one story
before the first `len(new_stories) >= batch_size` test — see the
counterexample.) -/
theorem claim3 :
    ∀ (pages : List FetchResult) (s : State) (K : Nat),
      1 ≤ K → (FRM.mine_date pages s K).1.length ≤ K := by
  intro pages s K hK
  exact FRM.mineLoop_len K pages 1 s [] hK

/-- Document used by counterexamples and witnesses. -/
def docAlpha : Doc := ⟨some (chars "Alpha"), some (chars "FR-A")⟩

/-- Second document used by counterexamples and witnesses. -/
def docBeta : Doc := ⟨some (chars "Beta"), some (chars "FR-B")⟩

/-- A one-page upstream holding two fresh documents. -/
def cexPages : List FetchResult := [.ok [docAlpha, docBeta] 1]

/-- Claim C3 counterexample: with batch limit `K = 0` and one fresh
document upstream, `mine_date` returns one story, not at most `0`:
the batch test `len(new_stories) >= batch_size` only runs after a story
has already been published. -/
theorem claim3_cex :
    ¬ (FRM.mine_date [.ok [docAlpha] 1] ⟨[], 1⟩ 0).1.length ≤ 0 := by
  decide

/-- Witness for the amended C3 at `K = 1` over a two-document page. -/
theorem claim3_witness : (FRM.mine_date cexPages ⟨[], 1⟩ 1).1.length ≤ 1 :=
  claim3 cexPages ⟨[], 1⟩ 1 (by decide)

lemma count_append_fresh {pub A : List Str} {x : Str} (hx : x ∈ pub)
    (hA : ∀ a ∈ A, a ∉ pub) : (pub ++ A).count x = pub.count x := by
  rw [List.count_append]
  have hz : A.count x = 0 := List.count_eq_zero.mpr fun hxA => hA x hxA hx
  omega

/-- Claim C1 (amended): a document identifier already in the ledger is
never appended to it again by either miner (its multiplicity in
`published_docs` is unchanged by a run), and a second run over the same
upstream with the carried-over state is a no-op — it returns zero stories
and leaves the state untouched — for `mine_date_all` unconditionally, and
for `mine_date` whenever the first run did not stop at the batch limit
(returned fewer than `batch_size` stories).  When the first run does stop
at the batch limit, the second run publishes the documents the first one
never reached — see the counterexample. -/
theorem claim1 :
    (∀ (pages : List FetchResult) (s : State) (b : Nat) (x : Str),
      x ∈ s.published_docs →
      ((FRM.mine_date pages s b).2.published_docs).count x
        = s.published_docs.count x) ∧
    (∀ (pages : List FetchResult) (s : State) (x : Str),
      x ∈ s.published_docs →
      ((HFM.mine_date_all pages s).2.published_docs).count x
        = s.published_docs.count x) ∧
    (∀ (pages : List FetchResult) (s : State),
      HFM.mine_date_all pages (HFM.mine_date_all pages s).2
        = ([], (HFM.mine_date_all pages s).2)) ∧
    (∀ (pages : List FetchResult) (s : State) (b : Nat),
      (FRM.mine_date pages s b).1.length < b →
      FRM.mine_date pages (FRM.mine_date pages s b).2 b
        = ([], (FRM.mine_date pages s b).2)) := by
  refine ⟨?_, ?_, ?_, ?_⟩
  · intro pages s b x hx
    obtain ⟨A, S, h1, _, _, _, h5, _⟩ := FRM.mineLoop_spec b pages 1 s []
    unfold FRM.mine_date
    rw [h1]
    exact count_append_fresh hx h5
  · intro pages s x hx
    obtain ⟨A, S, h1, _, _, _, h5, _⟩ := HFM.mineAllLoop_spec pages 1 s []
    unfold HFM.mine_date_all
    rw [h1]
    exact count_append_fresh hx h5
  · intro pages s
    exact HFM.mineAllLoop_idem pages 1 s []
  · intro pages s b h
    exact FRM.mineLoop_idem_lt b pages 1 s [] h

/-- Claim C1 counterexample: mining `cexPages` with batch limit 1 stops at
the limit after one story; rerunning the same date with the carried-over
state publishes the second document — one new story, not zero. -/
theorem claim1_cex :
    ¬ (FRM.mine_date cexPages (FRM.mine_date cexPages ⟨[], 1⟩ 1).2 1).1.length
      = 0 := by
  decide

/-- Witness for the amended C1: the ledger count of an already-published
identifier is preserved, and a first run that stayed under the batch limit
makes the second run a no-op. -/
theorem claim1_witness :
    ((FRM.mine_date cexPages ⟨[chars "FR-A"], 5⟩ 3).2.published_docs).count
        (chars "FR-A") = ([chars "FR-A"] : List Str).count (chars "FR-A") ∧
    FRM.mine_date cexPages (FRM.mine_date cexPages ⟨[], 1⟩ 3).2 3
      = ([], (FRM.mine_date cexPages ⟨[], 1⟩ 3).2) :=
  ⟨claim1.1 cexPages ⟨[chars "FR-A"], 5⟩ 3 (chars "FR-A") (by decide),
   claim1.2.2.2 cexPages ⟨[], 1⟩ 3 (by decide)⟩

/-- Claim C7: over one run of either miner the ledger is append-only — the
final `published_docs` is the initial list followed by the new
identifiers, so its size never decreases and prior entries survive — and
every appended identifier is the `document_number` of a document fetched
during that run. -/
theorem claim7 :
    ∀ (pages : List FetchResult) (s : State) (b : Nat),
      (s.published_docs.length
          ≤ (FRM.mine_date pages s b).2.published_docs.length ∧
        (∀ x ∈ s.published_docs,
          x ∈ (FRM.mine_date pages s b).2.published_docs) ∧
        ∃ A, (FRM.mine_date pages s b).2.published_docs
            = s.published_docs ++ A ∧
          ∀ a ∈ A, ∃ d, d ∈ FRM.fetched pages s b ∧ docNum d = a) ∧
      (s.published_docs.length
          ≤ (HFM.mine_date_all pages s).2.published_docs.length ∧
        (∀ x ∈ s.published_docs,
          x ∈ (HFM.mine_date_all pages s).2.published_docs) ∧
        ∃ A, (HFM.mine_date_all pages s).2.published_docs
            = s.published_docs ++ A ∧
          ∀ a ∈ A, ∃ d, d ∈ HFM.fetchedAll pages s ∧ docNum d = a) := by
  intro pages s b
  unfold FRM.mine_date HFM.mine_date_all FRM.fetched HFM.fetchedAll
  constructor
  · obtain ⟨A, S, h1, _, _, _, _, h6⟩ := FRM.mineLoop_spec b pages 1 s []
    refine ⟨by rw [h1]; simp, fun x hx => by rw [h1]; exact List.mem_append_left _ hx,
      A, h1, h6⟩
  · obtain ⟨A, S, h1, _, _, _, _, h6⟩ := HFM.mineAllLoop_spec pages 1 s []
    refine ⟨by rw [h1]; simp, fun x hx => by rw [h1]; exact List.mem_append_left _ hx,
      A, h1, h6⟩

/-- Witness for C7 on a concrete run whose starting ledger is nonempty. -/
theorem claim7_witness :
    chars "X" ∈ (FRM.mine_date cexPages ⟨[chars "X"], 1⟩ 5).2.published_docs ∧
    chars "X" ∈ (HFM.mine_date_all cexPages ⟨[chars "X"], 1⟩).2.published_docs :=
  ⟨(claim7 cexPages ⟨[chars "X"], 1⟩ 5).1.2.1 (chars "X") (by decide),
   (claim7 cexPages ⟨[chars "X"], 1⟩ 5).2.2.1 (chars "X") (by decide)⟩

/-- Claim C9: a document with no `document_number` field gets the empty
string as its ledger identifier; once the empty string is in the ledger,
any such document is skipped exactly like a duplicate (by both miners'
per-document loops); and on a fresh (empty) ledger whose first fetched
document lacks the field — with every fetched document lacking it — the
run publishes exactly that first document and records the single ledger
entry `""`. -/
theorem claim9 :
    (∀ d : Doc, d.document_number = none → docNum d = []) ∧
    (∀ (b : Nat) (d : Doc) (ds : List Doc) (s : State) (acc : List Story),
      d.document_number = none → ([] : Str) ∈ s.published_docs →
      FRM.processDocs b (d :: ds) s acc = FRM.processDocs b ds s acc) ∧
    (∀ (d : Doc) (ds : List Doc) (s : State) (acc : List Story),
      d.document_number = none → ([] : Str) ∈ s.published_docs →
      HFM.processDocsAll (d :: ds) s acc = HFM.processDocsAll ds s acc) ∧
    (∀ (d : Doc) (ds : List Doc) (tp : Nat) (rest : List FetchResult)
        (n b : Nat),
      (∀ d' ∈ pagesDocs (.ok (d :: ds) tp :: rest), d'.document_number = none) →
      FRM.mine_date (.ok (d :: ds) tp :: rest) ⟨[], n⟩ b
        = ([create_story_html d n], ⟨[[]], n + 1⟩)) ∧
    (∀ (d : Doc) (ds : List Doc) (tp : Nat) (rest : List FetchResult) (n : Nat),
      (∀ d' ∈ pagesDocs (.ok (d :: ds) tp :: rest), d'.document_number = none) →
      HFM.mine_date_all (.ok (d :: ds) tp :: rest) ⟨[], n⟩
        = ([create_story_html d n], ⟨[[]], n + 1⟩)) := by
  have hdocNum : ∀ d : Doc, d.document_number = none → docNum d = [] := by
    intro d h
    simp [docNum, h]
  refine ⟨hdocNum, ?_, ?_, ?_, ?_⟩
  · intro b d ds s acc hnone hmem
    exact FRM.processDocs_cons_mem b ds acc (by rw [hdocNum d hnone]; exact hmem)
  · intro d ds s acc hnone hmem
    exact HFM.processDocsAll_cons_mem ds acc (by rw [hdocNum d hnone]; exact hmem)
  · intro d ds tp rest n b hall
    have hnone : d.document_number = none :=
      hall d (by simp [pagesDocs_ok])
    have hdn : docNum d = [] := hdocNum d hnone
    have hnew : docNum d ∉ (⟨[], n⟩ : State).published_docs :=
      List.not_mem_nil _
    show FRM.mineLoop b (.ok (d :: ds) tp :: rest) 1 ⟨[], n⟩ [] = _
    rw [FRM.mineLoop_ok, if_neg (by simp : ¬((d :: ds).isEmpty = true)),
      FRM.processDocs_cons_new b ds [] hnew, hdn]
    dsimp only [List.nil_append, List.length_cons, List.length_nil]
    have hskip : FRM.processDocs b ds ⟨[[]], n + 1⟩ [create_story_html d n]
        = ([create_story_html d n], ⟨[[]], n + 1⟩, false) :=
      FRM.processDocs_skip b ds ⟨[[]], n + 1⟩ [create_story_html d n]
        fun d' hd' => by
          rw [hdocNum d' (hall d' (by simp [pagesDocs_ok, hd']))]
          exact List.mem_singleton.mpr rfl
    by_cases hb : b ≤ 0 + 1
    · rw [if_pos hb]
    · rw [if_neg hb, hskip]
      by_cases htp : tp < 1 + 1
      · exact if_pos htp
      · exact (if_neg htp).trans
          (FRM.mineLoop_skip b rest 2 ⟨[[]], n + 1⟩ [create_story_html d n]
            fun d' hd' => by
              rw [hdocNum d' (hall d' (by simp [pagesDocs_ok, hd']))]
              exact List.mem_singleton.mpr rfl)
  · intro d ds tp rest n hall
    have hnone : d.document_number = none :=
      hall d (by simp [pagesDocs_ok])
    have hdn : docNum d = [] := hdocNum d hnone
    have hnew : docNum d ∉ (⟨[], n⟩ : State).published_docs :=
      List.not_mem_nil _
    show HFM.mineAllLoop (.ok (d :: ds) tp :: rest) 1 ⟨[], n⟩ [] = _
    have hskip : HFM.processDocsAll ds ⟨[[]], n + 1⟩ [create_story_html d n]
        = ([create_story_html d n], ⟨[[]], n + 1⟩) :=
      HFM.processDocsAll_skip ds ⟨[[]], n + 1⟩ [create_story_html d n]
        fun d' hd' => by
          rw [hdocNum d' (hall d' (by simp [pagesDocs_ok, hd']))]
          exact List.mem_singleton.mpr rfl
    have hstep : HFM.processDocsAll (d :: ds) ⟨[], n⟩ []
        = ([create_story_html d n], ⟨[[]], n + 1⟩) := by
      rw [HFM.processDocsAll_cons_new ds [] hnew, hdn]
      dsimp only [List.nil_append]
      exact hskip
    rw [HFM.mineAllLoop_ok, if_neg (by simp : ¬((d :: ds).isEmpty = true)),
      hstep]
    by_cases htp : tp < 1 + 1
    · exact if_pos htp
    · exact (if_neg htp).trans
        (HFM.mineAllLoop_skip rest 2 ⟨[[]], n + 1⟩ [create_story_html d n]
          fun d' hd' => by
            rw [hdocNum d' (hall d' (by simp [pagesDocs_ok, hd']))]
            exact List.mem_singleton.mpr rfl)

/-- A document without a `document_number` field. -/
def docNoNumA : Doc := ⟨some (chars "T"), none⟩

/-- A second document without a `document_number` field. -/
def docNoNumB : Doc := ⟨some (chars "U"), none⟩

/-- Witness for C9: a fresh run over a page of two number-less documents
publishes exactly the first and records the single ledger entry `""`. -/
theorem claim9_witness :
    FRM.mine_date [.ok [docNoNumA, docNoNumB] 1] ⟨[], 5⟩ 100
      = ([create_story_html docNoNumA 5], ⟨[[]], 6⟩) :=
  claim9.2.2.2.1 docNoNumA [docNoNumB] 1 [] 5 100 (by decide)

/-! ### Claims about the orchestrators -/

/-- Day `day`, document `j` of the C6 scenario: all titles equal, all
`document_number`s distinct across the three days. -/
def c6Doc (day j : Nat) : Doc :=
  ⟨some (chars "doc"),
   some [Char.ofNat (97 + day), Char.ofNat (48 + j / 10), Char.ofNat (48 + j % 10)]⟩

/-- Three days of upstream responses, each one page of 40 fresh documents. -/
def c6Days : List (List FetchResult) :=
  [[FetchResult.ok ((List.range 40).map (c6Doc 0)) 1],
   [FetchResult.ok ((List.range 40).map (c6Doc 1)) 1],
   [FetchResult.ok ((List.range 40).map (c6Doc 2)) 1]]

set_option maxRecDepth 20000 in
/-- Claim C6: in historical mode over three days of 40 fresh documents
each with checkpoint threshold 100, no checkpoint fires after day 1 or
day 2; after day 3 the accumulator holds 120 stories, one checkpoint fires
publishing all 120 and resets the accumulator, and the final post-loop
flush publishes nothing. -/
theorem claim6 :
    (HFM.main ⟨[], 547⟩ [] c6Days 100).1 = [none, none, some 120] ∧
    (HFM.main ⟨[], 547⟩ [] c6Days 100).2.1 = none := by
  constructor <;> decide

/-- Claim C10: two orchestrator runs whose persisted states differ only in
`next_story_num` — same ledger, same directory listing, same prior index,
same upstream responses — produce identical outputs (stories, final state,
index content, checkpoint events): both `main`s overwrite the persisted
cursor with `get_next_story_num` of the directory listing before its first
use. -/
theorem claim10 :
    ∀ (pub : List Str) (n1 n2 : Nat) (listing : List Str)
      (priorIndex : Option Str) (pages : List FetchResult)
      (daysPages : List (List FetchResult)) (bcs : Nat),
      FRM.main ⟨pub, n1⟩ listing priorIndex pages
        = FRM.main ⟨pub, n2⟩ listing priorIndex pages ∧
      HFM.main ⟨pub, n1⟩ listing daysPages bcs
        = HFM.main ⟨pub, n2⟩ listing daysPages bcs := by
  intro pub n1 n2 listing priorIndex pages daysPages bcs
  exact ⟨rfl, rfl⟩
